import Mathlib

/-!
Verification of the minimap2-rs orchestration layer (src/minimap2/src/lib.rs).

The Rust source is shallowly embedded: engine (FFI) behaviour is passed in as
explicit data (register lists, part lists, boolean outcomes of native calls),
pointers become `Option`, machine integers become `Nat`/`Int` with explicit
truncation where the source truncates, and fallible Rust code returns `Except`.
Every definition in the `Minimap2` namespace translates a function or data
structure of the source file unless its doc comment says otherwise.
-/

deriving instance DecidableEq for Except

namespace Minimap2

/-- Reference-sequence names are byte strings (the bytes behind the C string
`mm_idx_seq_t.name`). -/
abbrev Name := List Nat

/-- Byte-lexicographic strict order on names.  Rust `String`/`str` ordering,
which drives `BTreeMap` iteration order in `extract_header`, is exactly
byte-lexicographic comparison of the UTF-8 bytes. -/
def lexLt : Name → Name → Bool
  | [], [] => false
  | [], _ :: _ => true
  | _ :: _, [] => false
  | a :: as, b :: bs => if a < b then true else if b < a then false else lexLt as bs

/-- UTF-8 continuation byte (0x80-0xBF). -/
def isCont (b : Nat) : Bool := decide (128 ≤ b ∧ b ≤ 191)

/-- Validity of a byte string as UTF-8, as checked by Rust
`CStr::to_str` / `core::str::from_utf8` (RFC 3629 table: no overlongs, no
surrogates, no code points above U+10FFFF). -/
def utf8Valid : List Nat → Bool
  | [] => true
  | b :: rest =>
    if b ≤ 127 then utf8Valid rest
    else match rest with
      | [] => false
      | c1 :: r1 =>
        if 194 ≤ b ∧ b ≤ 223 then isCont c1 && utf8Valid r1
        else match r1 with
          | [] => false
          | c2 :: r2 =>
            if b = 224 then decide (160 ≤ c1 ∧ c1 ≤ 191) && isCont c2 && utf8Valid r2
            else if 225 ≤ b ∧ b ≤ 236 then isCont c1 && isCont c2 && utf8Valid r2
            else if b = 237 then decide (128 ≤ c1 ∧ c1 ≤ 159) && isCont c2 && utf8Valid r2
            else if 238 ≤ b ∧ b ≤ 239 then isCont c1 && isCont c2 && utf8Valid r2
            else match r2 with
              | [] => false
              | c3 :: r3 =>
                if b = 240 then decide (144 ≤ c1 ∧ c1 ≤ 191) && isCont c2 && isCont c3 && utf8Valid r3
                else if 241 ≤ b ∧ b ≤ 243 then isCont c1 && isCont c2 && isCont c3 && utf8Valid r3
                else if b = 244 then decide (128 ≤ c1 ∧ c1 ≤ 143) && isCont c2 && isCont c3 && utf8Valid r3
                else false

/-- One `mm_idx_seq_t` entry of an index part: `name` is `none` when the C
`name` pointer is null, otherwise the bytes of the C string; `len` is the
`len` field (a `u32`, hence a `Nat`). -/
structure SeqEntryM where
  name : Option Name
  len : Nat
deriving DecidableEq

/-- One loaded `IndexPart` (`mm_idx_t`): `seqs` is `none` when the part's
`seq` array pointer is null, otherwise the `n_seq` entries of the array. -/
structure PartM where
  seqs : Option (List SeqEntryM)
deriving DecidableEq

/-- The per-entry filter of `Minimap2Index::extract_header`: skip entries with
a null name or a zero length (`if seq_ref.name.is_null() || seq_ref.len == 0
{ continue; }`), and entries whose name bytes are not valid UTF-8
(`if let Ok(name) = name_cstr.to_str()`). -/
def keepEntry (e : SeqEntryM) : Option (Name × Nat) :=
  match e.name with
  | none => none
  | some nm => if e.len = 0 then none else if utf8Valid nm then some (nm, e.len) else none

/-- Entries of one part surviving `extract_header`'s filters (a part whose
`seq` pointer is null is skipped whole). -/
def keptOfPart (p : PartM) : List (Name × Nat) :=
  match p.seqs with
  | none => []
  | some es => es.filterMap keepEntry

/-- All surviving (name, length) entries, in part order then entry order:
the insertion order into the `BTreeMap` of `extract_header`. -/
def keptEntries (parts : List PartM) : List (Name × Nat) :=
  (parts.map keptOfPart).flatten

/-- Association-list lookup (the model of `BTreeMap::get`). -/
def findVal : List (Name × Nat) → Name → Option Nat
  | [], _ => none
  | (k, v) :: r, nm => if k = nm then some v else findVal r nm

/-- One `extract_header` dictionary step: `match sequences.get(name) {
Some(existing) => if length > existing { insert }, None => insert }` —
longer length wins, ties keep the first seen. -/
def updateAssoc : List (Name × Nat) → Name → Nat → List (Name × Nat)
  | [], nm, len => [(nm, len)]
  | (k, v) :: rest, nm, len =>
    if k = nm then (if v < len then (k, len) :: rest else (k, v) :: rest)
    else (k, v) :: updateAssoc rest nm len

/-- The deduplicated dictionary contents after processing all kept entries in
order (the final `BTreeMap` as an association list in insertion order). -/
def buildDict (es : List (Name × Nat)) : List (Name × Nat) :=
  es.foldl (fun m e => updateAssoc m e.1 e.2) []

/-- Insertion step of sorting by name (ascending byte-lexicographic order). -/
def insertSorted (x : Name × Nat) : List (Name × Nat) → List (Name × Nat)
  | [] => [x]
  | y :: ys => if lexLt y.1 x.1 then y :: insertSorted x ys else x :: y :: ys

/-- Sort the dictionary by name: `BTreeMap` iteration emits entries in
ascending key order, which for Rust strings is byte-lexicographic. -/
def sortByName : List (Name × Nat) → List (Name × Nat)
  | [] => []
  | x :: xs => insertSorted x (sortByName xs)

/-- `Minimap2Index::extract_header`: the derived reference dictionary, as the
list of (name bytes, length) pairs in emission order. -/
def extract_header (parts : List PartM) : List (Name × Nat) :=
  sortByName (buildDict (keptEntries parts))

/-- Drop, from every part, the sequence entries whose (non-null) name bytes
are not valid UTF-8.  Used to state what `extract_header` ignores. -/
def stripInvalidNames (parts : List PartM) : List PartM :=
  parts.map fun p =>
    ⟨p.seqs.map (·.filter fun e =>
      match e.name with
      | none => true
      | some nm => utf8Valid nm)⟩

/-- The lengths of all kept entries carrying a given name, in insertion
order. -/
def occursLens (es : List (Name × Nat)) (nm : Name) : List Nat :=
  (es.filter fun e => decide (e.1 = nm)).map (·.2)

/-- The length the dictionary must record for a name: the longest length among
the kept entries with that name (a tie keeps the first seen, which carries the
same length, so the recorded value is the maximum). -/
def maxKeptLen (parts : List PartM) (nm : Name) : Nat :=
  (occursLens (keptEntries parts) nm).foldl max 0

/-- CIGAR operation kinds of the produced records (the `noodles_sam`
`Kind` variants targeted by `generate_cigar_ops`). -/
inductive CigarKind where
  | alnMatch
  | insertion
  | deletion
  | skip
  | softClip
  | hardClip
  | sequenceMatch
  | sequenceMismatch
deriving DecidableEq

/-- One CIGAR operation: kind plus length (`Op::new(kind, op_len)`). -/
structure CigarOp where
  kind : CigarKind
  len : Nat
deriving DecidableEq

/-- The opcode table of `generate_cigar_ops`: minimap2 opcode (low 4 bits of
the packed `u32`) to record kind, any unknown opcode (including 6) falling
back to a match. -/
def decodeKind (t : Nat) : CigarKind :=
  if t = 0 then .alnMatch
  else if t = 1 then .insertion
  else if t = 2 then .deletion
  else if t = 3 then .skip
  else if t = 4 then .softClip
  else if t = 5 then .hardClip
  else if t = 7 then .sequenceMatch
  else if t = 8 then .sequenceMismatch
  else .alnMatch

/-- The alignment detail block `mm_extra_t` behind `mm_reg1_t.p`: `cigar` is
the `n_cigar`-element packed `u32` CIGAR array (`(length << 4) | opcode`). -/
structure CigarDetail where
  cigar : List Nat
deriving DecidableEq

/-- One engine result register `mm_reg1_t`: reference id `rid` and reference
start `rs` are `i32`, `mapq` and `rev` are the values of the corresponding
bitfield accessors, and `p` is `none` when the alignment-detail pointer is
null. -/
structure RegM where
  rid : Int
  rs : Int
  mapq : Nat
  rev : Nat
  p : Option CigarDetail
deriving DecidableEq

/-- The result of one `mm_map` call for one part: the returned register count
`n_reg` (an `i32`) and the register array (`none` models a null pointer). -/
structure MapResult where
  nReg : Int
  regs : Option (List RegM)
deriving DecidableEq

/-- The produced alignment record (`noodles_sam RecordBuf`), restricted to the
fields `reg_to_sam_record` sets; a default record has no reference id, no
start, empty flags and an empty CIGAR. -/
structure RecordM where
  qname : List Nat
  qseq : List Nat
  refId : Option Nat
  alignStart : Option Nat
  mapq : Option Nat
  flags : Nat
  cigar : List CigarOp
deriving DecidableEq

/-- Modelled from the spec: the external record library's 1-based position
constructor (`noodles_core::Position::try_from(usize)`), which the source
calls with `(reg.rs + 1) as usize`; it rejects exactly 0 (positions are
non-zero), matching the spec's "optional 1-based start position". -/
def positionTryFrom (n : Nat) : Except Unit Nat :=
  if n = 0 then .error () else .ok n

/-- Modelled from the spec: the external record library's mapping-quality
constructor (`noodles_sam MappingQuality::try_from(u8)`), which the source
calls with `reg.mapq() as u8`.  The spec bounds mapping quality by the 0-255
byte range and says malformed mapping-quality values make per-record
translation fail (§7); the SAM value 255 is reserved for "missing", and the
constructor rejects exactly that value. -/
def mappingQualityTryFrom (n : Nat) : Except Unit Nat :=
  if n = 255 then .error () else .ok n

/-- The alignment-start computation of `reg_to_sam_record`: the field is left
absent when `reg.rs` is negative, otherwise `Position::try_from((reg.rs + 1)
as usize)?` is stored. -/
def startField (rs : Int) : Except Unit (Option Nat) :=
  if 0 ≤ rs then
    match positionTryFrom (rs + 1).toNat with
    | .ok p => .ok (some p)
    | .error e => .error e
  else .ok none

/-- `InnerAligner::generate_cigar_ops`: an empty list for a null detail
pointer, otherwise each packed `u32` decodes to an operation of length
`cigar_op >> 4` whose kind is `decodeKind` of the low 4 bits. -/
def generate_cigar_ops (reg : RegM) : List CigarOp :=
  match reg.p with
  | none => []
  | some d => d.cigar.map fun c => ⟨decodeKind (c % 16), c / 16⟩

/-- `InnerAligner::reg_to_sam_record`, with `dictLen` the number of reference
sequences in the header.  Field order and the two fallible steps (`?` on the
position and mapping-quality constructors) follow the source; `reg.mapq() as
u8` is the truncation `% 256`; the reverse-complement SAM flag bit is 0x10. -/
def reg_to_sam_record (dictLen : Nat) (qname qseq : List Nat) (reg : RegM) :
    Except Unit RecordM :=
  match startField reg.rs with
  | .error e => .error e
  | .ok st =>
    match mappingQualityTryFrom (reg.mapq % 256) with
    | .error e => .error e
    | .ok mq =>
      .ok
        { qname := qname
          qseq := qseq
          refId :=
            if 0 ≤ reg.rid ∧ reg.rid.toNat < dictLen then some reg.rid.toNat else none
          alignStart := st
          mapq := some mq
          flags := if reg.rev ≠ 0 then 16 else 0
          cigar := if reg.p.isSome then generate_cigar_ops reg else [] }

/-- Per-query alignment errors: `CString::new(query_name)?` fails on an
interior NUL byte, and `std::str::from_utf8(query_name)?` (evaluated while
translating a register) fails on invalid UTF-8. -/
inductive AlignError where
  | interiorNul
  | invalidUtf8
deriving DecidableEq

/-- The register loop of `align_read` for one part: for each register,
`std::str::from_utf8(query_name)?` aborts the whole query on invalid UTF-8,
then `if let Ok(record) = reg_to_sam_record(..)` keeps the record and silently
skips a register whose translation fails. -/
def regsLoop (dictLen : Nat) (qname qseq : List Nat) :
    List RegM → Except AlignError (List RecordM)
  | [] => .ok []
  | r :: rest =>
    if utf8Valid qname then
      match reg_to_sam_record dictLen qname qseq r with
      | .ok rec =>
        match regsLoop dictLen qname qseq rest with
        | .ok rs => .ok (rec :: rs)
        | .error e => .error e
      | .error _ => regsLoop dictLen qname qseq rest
    else .error .invalidUtf8

/-- One part's contribution in `align_read`: the register array is used only
when it is non-null and `n_reg > 0` (`if !regs.is_null() && n_reg > 0`), and
then holds `n_reg` registers. -/
def partAlign (dictLen : Nat) (qname qseq : List Nat) (mr : MapResult) :
    Except AlignError (List RecordM) :=
  match mr.regs with
  | none => .ok []
  | some l => if 0 < mr.nReg then regsLoop dictLen qname qseq (l.take mr.nReg.toNat) else .ok []

/-- The part loop of `align_read`: parts are processed in order and their
record lists appended. -/
def partsLoop (dictLen : Nat) (qname qseq : List Nat) :
    List MapResult → Except AlignError (List RecordM)
  | [] => .ok []
  | mr :: rest =>
    match partAlign dictLen qname qseq mr with
    | .error e => .error e
    | .ok rs =>
      match partsLoop dictLen qname qseq rest with
      | .error e => .error e
      | .ok rest' => .ok (rs ++ rest')

/-- `InnerAligner::align_read`, with the engine's per-part `mm_map` outcomes
passed in as `results` (one `MapResult` per index part, in part order).
`CString::new(query_name)?` fails first on an interior NUL byte. -/
def align_read (dictLen : Nat) (qname qseq : List Nat) (results : List MapResult) :
    Except AlignError (List RecordM) :=
  if qname.contains 0 then .error .interiorNul
  else partsLoop dictLen qname qseq results

/-- The registers of a `mm_map` outcome that `align_read` actually translates:
none for a null array or a non-positive count, otherwise the `n_reg`
registers. -/
def mapResultRegs (mr : MapResult) : List RegM :=
  match mr.regs with
  | none => []
  | some l => if 0 < mr.nReg then l.take mr.nReg.toNat else []

/-- `align_read` driven by an engine: one `mm_map` call per index part of the
loaded index, in part order, with the header derived from the same parts
(`self.reg_to_sam_record(&index.header, ..)`). -/
def alignAgainstIndex (parts : List PartM) (engine : PartM → MapResult)
    (qname qseq : List Nat) : Except AlignError (List RecordM) :=
  align_read (extract_header parts).length qname qseq (parts.map engine)

/-- Sequential fallible map (the explicit `for record in chunk { .. ? .. }`
loops of the source; also the handle-join loop, which surfaces the first
worker error in handle order). -/
def mapExcept (f : α → Except ε β) : List α → Except ε (List β)
  | [] => .ok []
  | x :: xs =>
    match f x with
    | .error e => .error e
    | .ok y =>
      match mapExcept f xs with
      | .error e => .error e
      | .ok ys => .ok (y :: ys)

/-- One batch worker (`s.spawn`): construct its own `InnerAligner`
(`mkCtx`, which can fail like `InnerAligner::new`), then align every query of
the chunk sequentially. -/
def runChunk (mkCtx : Except ε Unit) (alignOne : α → Except ε (List β))
    (chunk : List α) : Except ε (List (List β)) :=
  match mkCtx with
  | .error e => .error e
  | .ok _ => mapExcept alignOne chunk

/-- `slice::chunks(n)` with fuel (`fuel ≥ l.length` makes the fuel
irrelevant): contiguous chunks of `n` elements, the last possibly shorter. -/
def chunksFuel (n : Nat) : Nat → List α → List (List α)
  | _, [] => []
  | 0, _ :: _ => []
  | fuel + 1, x :: xs => (x :: xs).take n :: chunksFuel n fuel ((x :: xs).drop n)

/-- `records.chunks(chunk_size)` as a total function (the source never calls
it with `chunk_size = 0`: the empty-input early return keeps
`(len + w - 1) / w ≥ 1`). -/
def chunksOf (n : Nat) (l : List α) : List (List α) :=
  if n = 0 then [] else chunksFuel n l.length l

/-- The effective worker count of `align_batch`: `max(1, min(available, 16))`
when `num_threads == 0` (with `available` the detected parallelism), else
`max(1, min(num_threads, 32))`. -/
def effectiveWorkers (threadCount detected : Nat) : Nat :=
  if threadCount = 0 then max 1 (min detected 16) else max 1 (min threadCount 32)

/-- The chunk size of `align_batch`: `(records.len() + num_threads - 1) /
num_threads`, i.e. `ceil(len / workers)`. -/
def chunkSize (len w : Nat) : Nat := (len + w - 1) / w

/-- `Minimap2Aligner::align_batch`: empty input returns immediately; otherwise
the queries are split into contiguous chunks, each chunk is processed by its
own worker (`runChunk`), and the per-chunk result lists are concatenated in
chunk order.  `alignOne` abstracts `InnerAligner::align_read` against the
shared index, `detected` abstracts `std::thread::available_parallelism()`. -/
def align_batch (mkCtx : Except ε Unit) (alignOne : α → Except ε (List β))
    (queries : List α) (threadCount detected : Nat) : Except ε (List (List β)) :=
  if queries.isEmpty then .ok []
  else
    match mapExcept (runChunk mkCtx alignOne)
        (chunksOf (chunkSize queries.length (effectiveWorkers threadCount detected)) queries) with
    | .error e => .error e
    | .ok rss => .ok rss.flatten

/-- The native calls `Minimap2Index::load` makes, in order. -/
inductive EngineCall where
  | mmSetOpt
  | mmSetOptPreset
  | idxReaderOpen
  | idxReaderRead
  | idxReaderClose
deriving DecidableEq

/-- `load`'s error outcomes.  `pathNotFound` is the bail "Path does not
exist"; `unknownPreset` the bail "Failed to apply preset: unknown preset";
`failedToOpenFile` the bail "Failed to open file" (null reader);
`failedToReadOrBuildIndex` the bail "Failed to read/build index" (zero parts
read). -/
inductive LoadError where
  | pathNotFound
  | unknownPreset
  | failedToOpenFile
  | failedToReadOrBuildIndex
deriving DecidableEq

/-- The environment `load` runs against: does the reference location exist,
is a preset configured and does the engine accept it (`mm_set_opt ≥ 0`), does
`mm_idx_reader_open` return non-null, and which parts does
`mm_idx_reader_read` yield before returning null. -/
structure LoadEnv where
  pathExists : Bool
  hasPreset : Bool
  presetKnown : Bool
  readerOpens : Bool
  readerParts : List PartM
deriving DecidableEq

/-- The successfully loaded `Minimap2Index`: all parts plus the derived
header dictionary. -/
structure IndexM where
  parts : List PartM
  header : List (Name × Nat)
deriving DecidableEq

/-- `Minimap2Index::load`, paired with the trace of native engine calls it
performs: check the path first, initialize defaults (`mm_set_opt(NULL)`),
apply the preset, open the reader, read parts until null, close the reader,
fail if zero parts were read, then derive the header via `extract_header`. -/
def load (env : LoadEnv) : Except LoadError IndexM × List EngineCall :=
  if !env.pathExists then (.error .pathNotFound, [])
  else
    let t0 := [EngineCall.mmSetOpt]
    if env.hasPreset && !env.presetKnown then
      (.error .unknownPreset, t0 ++ [EngineCall.mmSetOptPreset])
    else
      let t1 := if env.hasPreset then t0 ++ [EngineCall.mmSetOptPreset] else t0
      if !env.readerOpens then (.error .failedToOpenFile, t1 ++ [EngineCall.idxReaderOpen])
      else
        let t2 := t1 ++ [EngineCall.idxReaderOpen]
          ++ List.replicate (env.readerParts.length + 1) EngineCall.idxReaderRead
          ++ [EngineCall.idxReaderClose]
        if env.readerParts.isEmpty then (.error .failedToReadOrBuildIndex, t2)
        else (.ok ⟨env.readerParts, extract_header env.readerParts⟩, t2)

/-- The opcode table exactly as the specification states it (claim-side
definition, to be compared with `decodeKind` from the source). -/
def claimedKind (t : Nat) : CigarKind :=
  if t = 0 then .alnMatch
  else if t = 1 then .insertion
  else if t = 2 then .deletion
  else if t = 3 then .skip
  else if t = 4 then .softClip
  else if t = 5 then .hardClip
  else if t = 7 then .sequenceMatch
  else if t = 8 then .sequenceMismatch
  else .alnMatch

lemma claimedKind_eq_decodeKind (t : Nat) : claimedKind t = decodeKind t := rfl

lemma startField_never_fails (rs : Int) :
    startField rs = .ok (if 0 ≤ rs then some (rs + 1).toNat else none) := by
  unfold startField positionTryFrom
  by_cases h : 0 ≤ rs
  · rw [if_pos h, if_pos h, if_neg (by omega)]
  · rw [if_neg h, if_neg h]

/-- Claim C3 (amended): a register whose quality field truncates (as `u8`) to
a value in 0-254 yields a record carrying exactly that truncated mapping
quality; a register whose truncated quality is 255 (the SAM "missing" value)
fails translation instead, so no record is produced for it. -/
theorem mapq_truncation_amended (dictLen : Nat) (qname qseq : List Nat) (reg : RegM) :
    (reg.mapq % 256 ≠ 255 →
      ∃ rec, reg_to_sam_record dictLen qname qseq reg = .ok rec
        ∧ rec.mapq = some (reg.mapq % 256))
    ∧ (reg.mapq % 256 = 255 →
      reg_to_sam_record dictLen qname qseq reg = .error ()) := by
  constructor
  · intro h
    refine ⟨⟨qname, qseq,
      if 0 ≤ reg.rid ∧ reg.rid.toNat < dictLen then some reg.rid.toNat else none,
      if 0 ≤ reg.rs then some (reg.rs + 1).toNat else none,
      some (reg.mapq % 256),
      if reg.rev ≠ 0 then 16 else 0,
      if reg.p.isSome then generate_cigar_ops reg else []⟩, ?_, rfl⟩
    unfold reg_to_sam_record
    rw [startField_never_fails]
    unfold mappingQualityTryFrom
    rw [if_neg h]
  · intro h
    unfold reg_to_sam_record
    rw [startField_never_fails]
    unfold mappingQualityTryFrom
    rw [if_pos h]

/-- Claim C3, counterexample: a register whose quality field is 255 — inside
the claimed 0-255 range — is not translated into a record at all: the
translation step fails (the external mapping-quality type reserves 255 as
"missing"), so no produced record carries quality 255. -/
theorem mapq_truncation_counterexample :
    reg_to_sam_record 1 [65] [67] ⟨0, 0, 255, 0, none⟩ = .error () := by decide

/-- Claim C3, witness: at truncated quality 60 the amended theorem produces a
record carrying mapping quality 60. -/
theorem mapq_truncation_witness :
    ∃ rec, reg_to_sam_record 1 [65] [67] (⟨0, 0, 60, 0, none⟩ : RegM) = .ok rec
      ∧ rec.mapq = some (60 % 256) :=
  (mapq_truncation_amended 1 [65] [67] ⟨0, 0, 60, 0, none⟩).1 (by decide)

/-- Claim C4 (amended): when the engine's mapping call returns a null register
array, the single-query align call does not fail: whatever the accompanying
count (positive included), the part is treated as having no hits and the call
succeeds (the source guards on `!regs.is_null() && n_reg > 0` and has no
error path for a null array with a positive count). -/
theorem null_regs_treated_as_no_hits (dictLen : Nat) (qname qseq : List Nat) (n : Int)
    (h : qname.contains 0 = false) :
    align_read dictLen qname qseq [⟨n, none⟩] = .ok [] := by
  have hmem : 0 ∉ qname := by simpa using h
  simp [align_read, partsLoop, partAlign, hmem]

/-- Claim C4, counterexample: a mapping call reporting 3 registers together
with a null register array makes the single-query align call succeed with no
records — it does not fail with any error. -/
theorem null_regs_counterexample :
    align_read 0 [65] [65, 67] [⟨3, none⟩] = .ok [] := by decide

/-- Claim C4, witness for the amended theorem at a concrete positive count. -/
theorem null_regs_witness :
    align_read 2 [66, 67] [71] [⟨(5 : Int), none⟩] = .ok [] :=
  null_regs_treated_as_no_hits 2 [66, 67] [71] 5 (by decide)

/-- Claim C5: a produced record's CIGAR is empty when the register carries no
alignment-detail pointer; otherwise every packed integer `c` of the detail
block decodes to one operation of length `c >> 4` whose kind is determined by
the low 4 bits of `c` via the claimed opcode table (unknown opcodes,
including 6, fall back to Match). -/
theorem cigar_decode_spec (dictLen : Nat) (qname qseq : List Nat) (reg : RegM)
    (rec : RecordM) (h : reg_to_sam_record dictLen qname qseq reg = .ok rec) :
    (reg.p = none → rec.cigar = [])
    ∧ ∀ d, reg.p = some d →
        rec.cigar = d.cigar.map fun c => CigarOp.mk (claimedKind (c % 16)) (c >>> 4) := by
  unfold reg_to_sam_record at h
  rw [startField_never_fails] at h
  unfold mappingQualityTryFrom at h
  by_cases hm : reg.mapq % 256 = 255
  · rw [if_pos hm] at h
    exact absurd h (by simp)
  · rw [if_neg hm] at h
    simp only [Except.ok.injEq] at h
    subst h
    constructor
    · intro hp
      simp [hp]
    · intro d hp
      have hk : ∀ c : Nat, (⟨decodeKind (c % 16), c / 16⟩ : CigarOp)
          = ⟨claimedKind (c % 16), c >>> 4⟩ := by
        intro c
        rw [claimedKind_eq_decodeKind, Nat.shiftRight_eq_div_pow]
      simp [hp, generate_cigar_ops, hk]

/-- Claim C5, witness: packed values `(10<<4)|0`, `(4<<4)|4` and `(6<<4)|6`
decode to Match(10), SoftClip(4) and the Match(6) fallback. -/
theorem cigar_decode_witness :
    ((⟨0, 0, 60, 0, some ⟨[160, 68, 102]⟩⟩ : RegM).p = none →
      (⟨[65], [67], some 0, some 1, some 60, 0,
        [⟨.alnMatch, 10⟩, ⟨.softClip, 4⟩, ⟨.alnMatch, 6⟩]⟩ : RecordM).cigar = [])
    ∧ ∀ d, (⟨0, 0, 60, 0, some ⟨[160, 68, 102]⟩⟩ : RegM).p = some d →
        (⟨[65], [67], some 0, some 1, some 60, 0,
          [⟨.alnMatch, 10⟩, ⟨.softClip, 4⟩, ⟨.alnMatch, 6⟩]⟩ : RecordM).cigar
          = d.cigar.map fun c => CigarOp.mk (claimedKind (c % 16)) (c >>> 4) :=
  cigar_decode_spec 1 [65] [67] _ _ (by decide)

lemma regsLoop_ok (dictLen : Nat) (qname qseq : List Nat)
    (hv : utf8Valid qname = true) (regs : List RegM) :
    regsLoop dictLen qname qseq regs
      = .ok (regs.filterMap fun r => (reg_to_sam_record dictLen qname qseq r).toOption) := by
  induction regs with
  | nil => rfl
  | cons r rest ih =>
    unfold regsLoop
    rw [if_pos hv]
    cases h : reg_to_sam_record dictLen qname qseq r with
    | ok rec => rw [ih]; simp [h, Except.toOption]
    | error e => rw [ih]; simp [h, Except.toOption]

lemma partAlign_ok (dictLen : Nat) (qname qseq : List Nat)
    (hv : utf8Valid qname = true) (mr : MapResult) :
    partAlign dictLen qname qseq mr
      = .ok ((mapResultRegs mr).filterMap fun r =>
          (reg_to_sam_record dictLen qname qseq r).toOption) := by
  rcases mr with ⟨nReg, regs⟩
  cases regs with
  | none => rfl
  | some l =>
    show (if 0 < nReg then regsLoop dictLen qname qseq (l.take nReg.toNat) else .ok [])
      = .ok ((if 0 < nReg then l.take nReg.toNat else []).filterMap fun r =>
          (reg_to_sam_record dictLen qname qseq r).toOption)
    by_cases h : 0 < nReg
    · rw [if_pos h, if_pos h, regsLoop_ok dictLen qname qseq hv]
    · rw [if_neg h, if_neg h]; rfl

lemma partsLoop_ok (dictLen : Nat) (qname qseq : List Nat)
    (hv : utf8Valid qname = true) (results : List MapResult) :
    partsLoop dictLen qname qseq results
      = .ok ((results.map fun mr =>
          (mapResultRegs mr).filterMap fun r =>
            (reg_to_sam_record dictLen qname qseq r).toOption).flatten) := by
  induction results with
  | nil => rfl
  | cons mr rest ih =>
    unfold partsLoop
    rw [partAlign_ok dictLen qname qseq hv, ih]
    rfl

/-- Claim C6: for a well-formed query name, the single-query align call always
succeeds; a register whose translation fails is skipped individually (dropped
by `Except.toOption`/`filterMap`), and the records of the remaining registers
of all parts are returned in order. -/
theorem register_failures_skipped (dictLen : Nat) (qname qseq : List Nat)
    (results : List MapResult) (hn : qname.contains 0 = false)
    (hv : utf8Valid qname = true) :
    align_read dictLen qname qseq results
      = .ok ((results.map fun mr =>
          (mapResultRegs mr).filterMap fun r =>
            (reg_to_sam_record dictLen qname qseq r).toOption).flatten) := by
  have hmem : 0 ∉ qname := by simpa using hn
  simp [align_read, hmem, partsLoop_ok dictLen qname qseq hv]

/-- Claim C6, witness: a two-register result in which the second register has
the malformed truncated mapping quality 255 still succeeds and yields exactly
the record of the first register. -/
theorem register_failures_skipped_witness :
    align_read 1 [65] [65, 67, 71] [⟨2, some [⟨0, 0, 60, 0, none⟩, ⟨0, 5, 255, 1, none⟩]⟩]
      = .ok [⟨[65], [65, 67, 71], some 0, some 1, some 60, 0, []⟩] := by
  rw [register_failures_skipped 1 [65] [65, 67, 71]
    [⟨2, some [⟨0, 0, 60, 0, none⟩, ⟨0, 5, 255, 1, none⟩]⟩] (by decide) (by decide)]
  decide

/-- Claim C7: when the reference location does not exist, `load` fails with
the path-not-found error and its native engine-call trace is empty — the
failure happens before any engine call is attempted. -/
theorem load_missing_path (env : LoadEnv) (h : env.pathExists = false) :
    load env = (.error .pathNotFound, []) := by
  simp [load, h]

/-- Claim C7, witness at a concrete environment. -/
theorem load_missing_path_witness :
    load ⟨false, true, true, true, []⟩ = (.error .pathNotFound, []) :=
  load_missing_path ⟨false, true, true, true, []⟩ rfl

/-- Claim C8: if the reader yields zero parts before end-of-parts (and the
earlier steps succeed), `load` fails with the "failed to read/build index"
open-failure; consequently every successfully loaded index has a non-empty
part list. -/
theorem load_zero_parts :
    (∀ env : LoadEnv, env.pathExists = true → (env.hasPreset = false ∨ env.presetKnown = true) →
      env.readerOpens = true → env.readerParts = [] →
      (load env).1 = .error .failedToReadOrBuildIndex)
    ∧ ∀ (env : LoadEnv) (idx : IndexM), (load env).1 = .ok idx → idx.parts ≠ [] := by
  constructor
  · intro env h1 h2 h3 h4
    rcases env with ⟨pe, hp, pk, ro, parts⟩
    simp only at h1 h2 h3 h4
    subst h1; subst h3; subst h4
    rcases h2 with h2 | h2 <;> subst h2 <;> simp [load]
  · intro env idx h
    rcases env with ⟨pe, hp, pk, ro, parts⟩
    rcases parts with _ | ⟨p, parts⟩ <;>
      cases pe <;> cases hp <;> cases pk <;> cases ro <;>
        simp [load] at h <;> simp [← h]

/-- Claim C8, witness: a reachable reader that yields zero parts makes `load`
fail with the read/build failure. -/
theorem load_zero_parts_witness :
    (load ⟨true, false, false, true, []⟩).1 = .error .failedToReadOrBuildIndex :=
  load_zero_parts.1 ⟨true, false, false, true, []⟩ rfl (Or.inl rfl) rfl rfl

lemma chunksFuel_nil (n : Nat) : ∀ fuel, chunksFuel n fuel ([] : List α) = [] := by
  intro fuel
  cases fuel <;> rfl

lemma chunksFuel_irrel (n : Nat) (hn : 0 < n) :
    ∀ f₁ f₂ (l : List α), l.length ≤ f₁ → l.length ≤ f₂ →
      chunksFuel n f₁ l = chunksFuel n f₂ l := by
  intro f₁
  induction f₁ with
  | zero =>
    intro f₂ l h1 h2
    have hl : l = [] := List.eq_nil_of_length_eq_zero (Nat.le_zero.mp h1)
    subst hl
    rw [chunksFuel_nil, chunksFuel_nil]
  | succ f ih =>
    intro f₂ l h1 h2
    cases l with
    | nil => rw [chunksFuel_nil, chunksFuel_nil]
    | cons x xs =>
      cases f₂ with
      | zero => simp at h2
      | succ f₂ =>
        simp only [List.length_cons] at h1 h2
        show (x :: xs).take n :: chunksFuel n f ((x :: xs).drop n)
          = (x :: xs).take n :: chunksFuel n f₂ ((x :: xs).drop n)
        congr 1
        apply ih
        · simp only [List.length_drop, List.length_cons]; omega
        · simp only [List.length_drop, List.length_cons]; omega

lemma chunksOf_nil (n : Nat) : chunksOf n ([] : List α) = [] := by
  cases n <;> rfl

lemma chunksOf_cons (n : Nat) (l : List α) (hn : 0 < n) (hl : l ≠ []) :
    chunksOf n l = l.take n :: chunksOf n (l.drop n) := by
  cases l with
  | nil => exact absurd rfl hl
  | cons x xs =>
    unfold chunksOf
    rw [if_neg (by omega), if_neg (by omega)]
    show (x :: xs).take n :: chunksFuel n xs.length ((x :: xs).drop n)
      = (x :: xs).take n :: chunksFuel n ((x :: xs).drop n).length ((x :: xs).drop n)
    congr 1
    apply chunksFuel_irrel n hn
    · simp only [List.length_drop, List.length_cons]; omega
    · exact le_refl _

lemma chunksOf_flatten_aux (n : Nat) (hn : 0 < n) :
    ∀ (k : Nat) (l : List α), l.length ≤ k → (chunksOf n l).flatten = l := by
  intro k
  induction k with
  | zero =>
    intro l h
    have hl : l = [] := List.eq_nil_of_length_eq_zero (Nat.le_zero.mp h)
    subst hl
    rw [chunksOf_nil]
    rfl
  | succ k ih =>
    intro l h
    by_cases hl : l = []
    · subst hl; rw [chunksOf_nil]; rfl
    · rw [chunksOf_cons n l hn hl, List.flatten_cons,
        ih (l.drop n) (by simp only [List.length_drop]; have := List.length_pos.mpr hl; omega)]
      exact List.take_append_drop n l

lemma chunksOf_flatten (n : Nat) (hn : 0 < n) (l : List α) : (chunksOf n l).flatten = l :=
  chunksOf_flatten_aux n hn l.length l (le_refl _)

lemma chunksOf_count_aux (n : Nat) (hn : 0 < n) :
    ∀ (w : Nat) (l : List α), l.length ≤ n * w → (chunksOf n l).length ≤ w := by
  intro w
  induction w with
  | zero =>
    intro l h
    have hl : l = [] := List.eq_nil_of_length_eq_zero (by omega)
    subst hl
    simp [chunksOf_nil]
  | succ w ih =>
    intro l h
    by_cases hl : l = []
    · subst hl; simp [chunksOf_nil]
    · rw [chunksOf_cons n l hn hl]
      simp only [List.length_cons]
      have hd : (l.drop n).length ≤ n * w := by
        rw [Nat.mul_succ] at h
        simp only [List.length_drop]
        omega
      exact Nat.succ_le_succ (ih _ hd)

lemma chunksOf_mem_aux (n : Nat) (hn : 0 < n) :
    ∀ (k : Nat) (l : List α), l.length ≤ k →
      ∀ ch ∈ chunksOf n l, ch.length ≤ n ∧ ch ≠ [] := by
  intro k
  induction k with
  | zero =>
    intro l h
    have hl : l = [] := List.eq_nil_of_length_eq_zero (Nat.le_zero.mp h)
    subst hl
    simp [chunksOf_nil]
  | succ k ih =>
    intro l h
    by_cases hl : l = []
    · subst hl; simp [chunksOf_nil]
    · rw [chunksOf_cons n l hn hl]
      intro ch hch
      rcases List.mem_cons.mp hch with hch | hch
      · subst hch
        constructor
        · rw [List.length_take]; omega
        · have hp := List.length_pos.mpr hl
          intro he
          have hlen := congrArg List.length he
          rw [List.length_take] at hlen
          simp only [List.length_nil] at hlen
          omega
      · exact ih (l.drop n)
          (by simp only [List.length_drop]; have := List.length_pos.mpr hl; omega) ch hch

lemma chunksOf_dropLast_aux (n : Nat) (hn : 0 < n) :
    ∀ (k : Nat) (l : List α), l.length ≤ k →
      ∀ ch ∈ (chunksOf n l).dropLast, ch.length = n := by
  intro k
  induction k with
  | zero =>
    intro l h
    have hl : l = [] := List.eq_nil_of_length_eq_zero (Nat.le_zero.mp h)
    subst hl
    simp [chunksOf_nil]
  | succ k ih =>
    intro l h
    by_cases hl : l = []
    · subst hl; simp [chunksOf_nil]
    · rw [chunksOf_cons n l hn hl]
      cases hr : chunksOf n (l.drop n) with
      | nil => simp
      | cons c cs =>
        rw [List.dropLast_cons₂]
        intro ch hch
        rcases List.mem_cons.mp hch with hch | hch
        · subst hch
          have hne : l.drop n ≠ [] := by
            intro h0
            rw [h0, chunksOf_nil] at hr
            exact List.cons_ne_nil c cs hr.symm
          have hlt : n < l.length := by
            have := List.length_pos.mpr hne
            simp only [List.length_drop] at this
            omega
          rw [List.length_take]
          omega
        · rw [← hr] at hch
          exact ih (l.drop n)
            (by simp only [List.length_drop]; have := List.length_pos.mpr hl; omega) ch hch

lemma effectiveWorkers_pos (tc det : Nat) : 0 < effectiveWorkers tc det := by
  unfold effectiveWorkers
  split <;> exact Nat.lt_of_lt_of_le Nat.zero_lt_one (le_max_left 1 _)

lemma chunkSize_pos (len w : Nat) (hl : 0 < len) (hw : 0 < w) : 0 < chunkSize len w := by
  unfold chunkSize
  have h1 : 1 ≤ (len + w - 1) / w := (Nat.one_le_div_iff hw).mpr (by omega)
  omega

lemma len_le_chunkSize_mul (len w : Nat) (hl : 0 < len) (hw : 0 < w) :
    len ≤ chunkSize len w * w := by
  unfold chunkSize
  have he : len + w - 1 = (len - 1) + w := by omega
  rw [he, Nat.add_div_right _ hw, Nat.succ_mul]
  have hd := Nat.div_add_mod (len - 1) w
  have hm : (len - 1) % w < w := Nat.mod_lt _ hw
  rw [Nat.mul_comm] at hd
  generalize (len - 1) / w * w = z at hd ⊢
  omega

/-- Claim C9: for a non-empty query list, `align_batch` resolves the
effective worker count as `clamp(detected, 1, 16)` when `thread_count == 0`
and `clamp(thread_count, 1, 32)` otherwise, and partitions the queries into
contiguous chunks of size `ceil(len/workers)`: the chunks concatenate back to
the input, the chunk count never exceeds the worker count, every chunk but
the last has exactly the chunk size, and every chunk is non-empty and at most
the chunk size. -/
theorem batch_chunking_spec {α : Type} (q : List α) (tc det : Nat) (hq : q ≠ []) :
    effectiveWorkers tc det = (if tc = 0 then min (max det 1) 16 else min (max tc 1) 32)
    ∧ (chunksOf (chunkSize q.length (effectiveWorkers tc det)) q).flatten = q
    ∧ (chunksOf (chunkSize q.length (effectiveWorkers tc det)) q).length
        ≤ effectiveWorkers tc det
    ∧ (∀ ch ∈ (chunksOf (chunkSize q.length (effectiveWorkers tc det)) q).dropLast,
        ch.length = chunkSize q.length (effectiveWorkers tc det))
    ∧ ∀ ch ∈ chunksOf (chunkSize q.length (effectiveWorkers tc det)) q,
        ch.length ≤ chunkSize q.length (effectiveWorkers tc det) ∧ ch ≠ [] := by
  have hw := effectiveWorkers_pos tc det
  have hlen : 0 < q.length := List.length_pos.mpr hq
  have hc := chunkSize_pos q.length (effectiveWorkers tc det) hlen hw
  refine ⟨?_, chunksOf_flatten _ hc q, ?_, ?_, ?_⟩
  · unfold effectiveWorkers
    split <;> simp [Nat.min_def, Nat.max_def] <;> split_ifs <;> omega
  · exact chunksOf_count_aux _ hc (effectiveWorkers tc det) q
      (len_le_chunkSize_mul q.length _ hlen hw)
  · exact chunksOf_dropLast_aux _ hc q.length q (le_refl _)
  · exact chunksOf_mem_aux _ hc q.length q (le_refl _)

/-- Claim C9, witness: 5 queries with `thread_count = 2` give 2 workers and
chunks of size 3. -/
theorem batch_chunking_spec_witness :
    effectiveWorkers 2 8 = (if 2 = 0 then min (max 8 1) 16 else min (max 2 1) 32)
    ∧ (chunksOf (chunkSize ([1, 2, 3, 4, 5] : List Nat).length (effectiveWorkers 2 8))
        [1, 2, 3, 4, 5]).flatten = [1, 2, 3, 4, 5]
    ∧ (chunksOf (chunkSize ([1, 2, 3, 4, 5] : List Nat).length (effectiveWorkers 2 8))
        [1, 2, 3, 4, 5]).length ≤ effectiveWorkers 2 8
    ∧ (∀ ch ∈ (chunksOf (chunkSize ([1, 2, 3, 4, 5] : List Nat).length (effectiveWorkers 2 8))
        [1, 2, 3, 4, 5]).dropLast,
        ch.length = chunkSize ([1, 2, 3, 4, 5] : List Nat).length (effectiveWorkers 2 8))
    ∧ ∀ ch ∈ chunksOf (chunkSize ([1, 2, 3, 4, 5] : List Nat).length (effectiveWorkers 2 8))
        [1, 2, 3, 4, 5],
        ch.length ≤ chunkSize ([1, 2, 3, 4, 5] : List Nat).length (effectiveWorkers 2 8)
          ∧ ch ≠ [] :=
  batch_chunking_spec [1, 2, 3, 4, 5] 2 8 (by decide)

lemma mapExcept_ok_length {α β ε : Type} (f : α → Except ε β) :
    ∀ (l : List α) (r : List β), mapExcept f l = .ok r → r.length = l.length := by
  intro l
  induction l with
  | nil =>
    intro r h
    simp only [mapExcept, Except.ok.injEq] at h
    simp [← h]
  | cons x xs ih =>
    intro r h
    unfold mapExcept at h
    cases hf : f x with
    | error e => rw [hf] at h; exact absurd h (by simp)
    | ok y =>
      rw [hf] at h
      cases hr : mapExcept f xs with
      | error e => rw [hr] at h; exact absurd h (by simp)
      | ok ys =>
        rw [hr] at h
        simp only [Except.ok.injEq] at h
        subst h
        simp [ih ys hr]

lemma mapExcept_ok_get {α β ε : Type} (f : α → Except ε β) :
    ∀ (l : List α) (r : List β), mapExcept f l = .ok r →
      ∀ i (h1 : i < l.length) (h2 : i < r.length),
        f (l.get ⟨i, h1⟩) = .ok (r.get ⟨i, h2⟩) := by
  intro l
  induction l with
  | nil => intro r h i h1 h2; simp at h1
  | cons x xs ih =>
    intro r h i h1 h2
    unfold mapExcept at h
    cases hf : f x with
    | error e => rw [hf] at h; exact absurd h (by simp)
    | ok y =>
      rw [hf] at h
      cases hr : mapExcept f xs with
      | error e => rw [hr] at h; exact absurd h (by simp)
      | ok ys =>
        rw [hr] at h
        simp only [Except.ok.injEq] at h
        subst h
        cases i with
        | zero => simpa using hf
        | succ i =>
          exact ih ys hr i (Nat.lt_of_succ_lt_succ h1)
            (Nat.lt_of_succ_lt_succ (by simpa using h2))

lemma mapExcept_append {α β ε : Type} (f : α → Except ε β) :
    ∀ (l₁ l₂ : List α) (r₁ r₂ : List β), mapExcept f l₁ = .ok r₁ →
      mapExcept f l₂ = .ok r₂ → mapExcept f (l₁ ++ l₂) = .ok (r₁ ++ r₂) := by
  intro l₁
  induction l₁ with
  | nil =>
    intro l₂ r₁ r₂ h1 h2
    simp only [mapExcept, Except.ok.injEq] at h1
    subst h1
    simpa using h2
  | cons x xs ih =>
    intro l₂ r₁ r₂ h1 h2
    unfold mapExcept at h1
    cases hf : f x with
    | error e => rw [hf] at h1; exact absurd h1 (by simp)
    | ok y =>
      rw [hf] at h1
      cases hr : mapExcept f xs with
      | error e => rw [hr] at h1; exact absurd h1 (by simp)
      | ok ys =>
        rw [hr] at h1
        simp only [Except.ok.injEq] at h1
        subst h1
        simp only [List.cons_append]
        unfold mapExcept
        rw [hf]
        simp only [ih l₂ ys r₂ hr h2]

lemma mapExcept_runChunk_flatten {α β ε : Type} (mk : Except ε Unit)
    (f : α → Except ε (List β)) :
    ∀ (ll : List (List α)) (ps : List (List (List β))),
      mapExcept (runChunk mk f) ll = .ok ps →
      mapExcept f ll.flatten = .ok ps.flatten := by
  intro ll
  induction ll with
  | nil =>
    intro ps h
    simp only [mapExcept, Except.ok.injEq] at h
    subst h
    rfl
  | cons ch t ih =>
    intro ps h
    unfold mapExcept at h
    cases hc : runChunk mk f ch with
    | error e => rw [hc] at h; exact absurd h (by simp)
    | ok p =>
      rw [hc] at h
      cases ht : mapExcept (runChunk mk f) t with
      | error e => rw [ht] at h; exact absurd h (by simp)
      | ok ps' =>
        rw [ht] at h
        simp only [Except.ok.injEq] at h
        subst h
        have hch : mapExcept f ch = .ok p := by
          unfold runChunk at hc
          cases mk with
          | error e => exact absurd hc (by simp)
          | ok u => exact hc
        rw [List.flatten_cons, List.flatten_cons]
        exact mapExcept_append f ch t.flatten p ps'.flatten hch (ih ps' ht)

/-- Claim C1: whenever `align_batch` succeeds it returns exactly one result
list per input query, the result at position `i` being the alignment result
of `queries[i]` (chunks are contiguous and concatenated in chunk order, so
input order is reproduced); on the empty query list it returns the empty
list. -/
theorem align_batch_preserves_order :
    (∀ {α β ε : Type} (mk : Except ε Unit) (f : α → Except ε (List β))
      (q : List α) (tc det : Nat) (rs : List (List β)),
      align_batch mk f q tc det = .ok rs →
      rs.length = q.length
        ∧ ∀ i (h1 : i < q.length) (h2 : i < rs.length),
            f (q.get ⟨i, h1⟩) = .ok (rs.get ⟨i, h2⟩))
    ∧ ∀ {α β ε : Type} (mk : Except ε Unit) (f : α → Except ε (List β)) (tc det : Nat),
        align_batch mk f ([] : List α) tc det = .ok ([] : List (List β)) := by
  constructor
  · intro α β ε mk f q tc det rs h
    unfold align_batch at h
    by_cases hq : q.isEmpty
    · rw [if_pos hq] at h
      simp only [Except.ok.injEq] at h
      subst h
      have hq' : q = [] := List.isEmpty_iff.mp hq
      subst hq'
      exact ⟨rfl, fun i h1 _ => absurd h1 (by simp)⟩
    · rw [if_neg hq] at h
      have hq' : q ≠ [] := fun he => hq (by simp [he])
      cases hm : mapExcept (runChunk mk f)
          (chunksOf (chunkSize q.length (effectiveWorkers tc det)) q) with
      | error e => rw [hm] at h; exact absurd h (by simp)
      | ok ps =>
        rw [hm] at h
        simp only [Except.ok.injEq] at h
        subst h
        have hc := chunkSize_pos q.length (effectiveWorkers tc det)
          (List.length_pos.mpr hq') (effectiveWorkers_pos tc det)
        have hflat := mapExcept_runChunk_flatten mk f _ ps hm
        rw [chunksOf_flatten _ hc q] at hflat
        exact ⟨mapExcept_ok_length f q ps.flatten hflat,
          mapExcept_ok_get f q ps.flatten hflat⟩
  · intro α β ε mk f tc det
    rfl

/-- Claim C1, witness: three queries, two workers, each query's result in its
input position. -/
theorem align_batch_preserves_order_witness :
    ([[1], [2], [3]] : List (List Nat)).length = ([1, 2, 3] : List Nat).length
      ∧ ∀ i (h1 : i < ([1, 2, 3] : List Nat).length)
          (h2 : i < ([[1], [2], [3]] : List (List Nat)).length),
          (fun n : Nat => (Except.ok [n] : Except Unit (List Nat)))
              (([1, 2, 3] : List Nat).get ⟨i, h1⟩)
            = Except.ok (([[1], [2], [3]] : List (List Nat)).get ⟨i, h2⟩) :=
  align_batch_preserves_order.1 (Except.ok ())
    (fun n : Nat => (Except.ok [n] : Except Unit (List Nat)))
    [1, 2, 3] 2 8 [[1], [2], [3]] (by decide)

/-- Combine an optional current dictionary value with a new length the way
`extract_header` resolves a collision: absent keys take the new length,
present keys keep the longer one (a tie keeps the stored value). -/
def optMax : Option Nat → Nat → Nat
  | none, v => v
  | some w, v => max w v

/-- `optMax` as a fold step over `Option Nat`. -/
def optMaxF (acc : Option Nat) (v : Nat) : Option Nat := some (optMax acc v)

lemma findVal_updateAssoc (m : List (Name × Nat)) (k : Name) (v : Nat) (nm : Name) :
    findVal (updateAssoc m k v) nm
      = if k = nm then some (optMax (findVal m nm) v) else findVal m nm := by
  induction m with
  | nil =>
    simp only [updateAssoc, findVal]
    by_cases h : k = nm <;> simp [h, optMax]
  | cons p rest ih =>
    rcases p with ⟨k₀, v₀⟩
    simp only [updateAssoc]
    by_cases h0 : k₀ = k
    · subst h0
      by_cases hv : v₀ < v <;> by_cases h1 : k₀ = nm <;>
        simp [hv, h1, findVal, optMax] <;> omega
    · by_cases h1 : k₀ = nm
      · subst h1
        have hk : k ≠ k₀ := fun he => h0 he.symm
        simp [findVal, h0, hk, ih]
      · simp [findVal, h0, h1, ih]

lemma keys_updateAssoc (m : List (Name × Nat)) (k : Name) (v : Nat) :
    (updateAssoc m k v).map Prod.fst
      = if k ∈ m.map Prod.fst then m.map Prod.fst else m.map Prod.fst ++ [k] := by
  induction m with
  | nil => simp [updateAssoc]
  | cons p rest ih =>
    rcases p with ⟨k₀, v₀⟩
    simp only [updateAssoc]
    by_cases h0 : k₀ = k
    · subst h0
      by_cases hv : v₀ < v <;> simp [hv]
    · have hk : k ≠ k₀ := fun he => h0 he.symm
      by_cases hmem : k ∈ rest.map Prod.fst <;>
        simp [h0, hk, hmem, ih]

lemma keysNodup_updateAssoc (m : List (Name × Nat)) (k : Name) (v : Nat)
    (h : (m.map Prod.fst).Nodup) : ((updateAssoc m k v).map Prod.fst).Nodup := by
  rw [keys_updateAssoc]
  by_cases hk : k ∈ m.map Prod.fst
  · simpa [hk] using h
  · simp only [hk, if_false]
    rw [List.nodup_append]
    refine ⟨h, List.nodup_singleton k, ?_⟩
    intro a ha hb
    rw [List.mem_singleton] at hb
    subst hb
    exact hk ha

lemma keysNodup_foldl (es : List (Name × Nat)) :
    ∀ m, (m.map Prod.fst).Nodup →
      ((es.foldl (fun m e => updateAssoc m e.1 e.2) m).map Prod.fst).Nodup := by
  induction es with
  | nil => intro m h; exact h
  | cons e rest ih =>
    intro m h
    exact ih _ (keysNodup_updateAssoc m e.1 e.2 h)

lemma findVal_foldl_updateAssoc (es : List (Name × Nat)) :
    ∀ (m : List (Name × Nat)) (nm : Name),
      findVal (es.foldl (fun m e => updateAssoc m e.1 e.2) m) nm
        = es.foldl (fun acc e => if e.1 = nm then some (optMax acc e.2) else acc)
            (findVal m nm) := by
  induction es with
  | nil => intro m nm; rfl
  | cons e rest ih =>
    intro m nm
    simp only [List.foldl_cons]
    rw [ih, findVal_updateAssoc]

lemma mem_iff_findVal :
    ∀ (m : List (Name × Nat)), (m.map Prod.fst).Nodup →
      ∀ (nm : Name) (l : Nat), ((nm, l) ∈ m ↔ findVal m nm = some l) := by
  intro m
  induction m with
  | nil => intro _ nm l; simp [findVal]
  | cons p rest ih =>
    intro h nm l
    rcases p with ⟨k₀, v₀⟩
    simp only [List.map_cons, List.nodup_cons] at h
    obtain ⟨hk, hrest⟩ := h
    unfold findVal
    by_cases h0 : k₀ = nm
    · subst h0
      rw [if_pos rfl]
      constructor
      · intro hm
        rcases List.mem_cons.mp hm with he | hm
        · simp only [Prod.mk.injEq] at he
          simp [he.2]
        · exact absurd (List.mem_map.mpr ⟨(k₀, l), hm, rfl⟩) hk
      · intro he
        simp only [Option.some.injEq] at he
        subst he
        exact List.mem_cons_self _ _
    · rw [if_neg h0, ← ih hrest nm l]
      constructor
      · intro hm
        rcases List.mem_cons.mp hm with he | hm
        · simp only [Prod.mk.injEq] at he
          exact absurd he.1.symm h0
        · exact hm
      · intro hm
        exact List.mem_cons_of_mem _ hm

lemma foldl_stepMax (nm : Name) (es : List (Name × Nat)) :
    ∀ acc, es.foldl (fun acc e => if e.1 = nm then some (optMax acc e.2) else acc) acc
      = (occursLens es nm).foldl optMaxF acc := by
  induction es with
  | nil => intro acc; rfl
  | cons e rest ih =>
    intro acc
    by_cases h : e.1 = nm
    · have hx : occursLens (e :: rest) nm = e.2 :: occursLens rest nm := by
        unfold occursLens
        rw [List.filter_cons, if_pos (by simp [h])]
        rfl
      rw [List.foldl_cons, hx, List.foldl_cons, if_pos h, ih]
      rfl
    · have hx : occursLens (e :: rest) nm = occursLens rest nm := by
        unfold occursLens
        rw [List.filter_cons, if_neg (by simp [h])]
      rw [List.foldl_cons, hx, if_neg h, ih]

lemma foldl_optMaxF_some (ls : List Nat) :
    ∀ a, ls.foldl optMaxF (some a) = some (ls.foldl max a) := by
  induction ls with
  | nil => intro a; rfl
  | cons x xs ih =>
    intro a
    simp only [List.foldl_cons]
    exact ih (max a x)

lemma foldl_optMaxF_none (ls : List Nat) (h : ls ≠ []) :
    ls.foldl optMaxF none = some (ls.foldl max 0) := by
  cases ls with
  | nil => exact absurd rfl h
  | cons x xs =>
    simp only [List.foldl_cons]
    rw [show optMaxF none x = some x from rfl, foldl_optMaxF_some, Nat.zero_max]

lemma occursLens_eq_nil_iff (es : List (Name × Nat)) (nm : Name) :
    occursLens es nm = [] ↔ nm ∉ es.map Prod.fst := by
  unfold occursLens
  rw [List.map_eq_nil_iff, List.filter_eq_nil_iff]
  constructor
  · intro h hmem
    rcases List.mem_map.mp hmem with ⟨e, he, hfst⟩
    exact h e he (by simp [hfst])
  · intro h e he
    simp only [decide_eq_true_eq]
    intro hfst
    exact h (List.mem_map.mpr ⟨e, he, hfst⟩)

lemma findVal_buildDict (es : List (Name × Nat)) (nm : Name) :
    findVal (buildDict es) nm
      = if occursLens es nm = [] then none
        else some ((occursLens es nm).foldl max 0) := by
  unfold buildDict
  rw [findVal_foldl_updateAssoc]
  rw [show findVal [] nm = none from rfl, foldl_stepMax]
  by_cases h : occursLens es nm = []
  · rw [if_pos h, h]
    rfl
  · rw [if_neg h, foldl_optMaxF_none _ h]

lemma insertSorted_perm (x : Name × Nat) (l : List (Name × Nat)) :
    List.Perm (insertSorted x l) (x :: l) := by
  induction l with
  | nil => exact List.Perm.refl _
  | cons y ys ih =>
    unfold insertSorted
    by_cases h : lexLt y.1 x.1 = true
    · rw [if_pos h]
      exact (ih.cons y).trans (List.Perm.swap x y ys)
    · rw [if_neg h]

lemma sortByName_perm (l : List (Name × Nat)) : List.Perm (sortByName l) l := by
  induction l with
  | nil => exact List.Perm.refl _
  | cons x xs ih =>
    exact (insertSorted_perm x (sortByName xs)).trans (ih.cons x)

lemma lexLt_cons (a b : Nat) (as bs : List Nat) :
    lexLt (a :: as) (b :: bs) = true ↔ a < b ∨ (a = b ∧ lexLt as bs = true) := by
  show (if a < b then true else if b < a then false else lexLt as bs) = true
    ↔ a < b ∨ (a = b ∧ lexLt as bs = true)
  by_cases h1 : a < b
  · simp [h1]
  · rw [if_neg h1]
    by_cases h2 : b < a
    · rw [if_pos h2]
      constructor
      · intro h; exact absurd h (by simp)
      · rintro (h | ⟨h, _⟩) <;> omega
    · rw [if_neg h2]
      have ha : a = b := by omega
      subst ha
      simp [h1]

lemma lexLt_irrefl : ∀ a : Name, lexLt a a = false := by
  intro a
  induction a with
  | nil => rfl
  | cons x xs ih =>
    cases hh : lexLt (x :: xs) (x :: xs)
    · rfl
    · rw [lexLt_cons] at hh
      rcases hh with h | ⟨_, h⟩
      · omega
      · rw [ih] at h
        exact absurd h (by simp)

lemma lexLt_trans : ∀ a b c : Name, lexLt a b = true → lexLt b c = true → lexLt a c = true := by
  intro a
  induction a with
  | nil =>
    intro b c hab hbc
    cases b with
    | nil => simp [lexLt] at hab
    | cons y bs =>
      cases c with
      | nil => simp [lexLt] at hbc
      | cons z cs => rfl
  | cons x as ih =>
    intro b c hab hbc
    cases b with
    | nil => simp [lexLt] at hab
    | cons y bs =>
      cases c with
      | nil => simp [lexLt] at hbc
      | cons z cs =>
        rw [lexLt_cons] at hab hbc ⊢
        rcases hab with h | ⟨he, h⟩ <;> rcases hbc with h' | ⟨he', h'⟩
        · exact Or.inl (by omega)
        · exact Or.inl (by omega)
        · exact Or.inl (by omega)
        · exact Or.inr ⟨by omega, ih bs cs h h'⟩

lemma lexLt_asymm (a b : Name) (h : lexLt a b = true) : lexLt b a = false := by
  cases hh : lexLt b a
  · rfl
  · have := lexLt_trans a b a h hh
    rw [lexLt_irrefl] at this
    exact absurd this (by simp)

lemma lexLt_conn : ∀ a b : Name, lexLt a b = false → lexLt b a = false → a = b := by
  intro a
  induction a with
  | nil =>
    intro b h1 h2
    cases b with
    | nil => rfl
    | cons y bs => simp [lexLt] at h1
  | cons x as ih =>
    intro b h1 h2
    cases b with
    | nil => simp [lexLt] at h2
    | cons y bs =>
      have h1' : ¬(x < y ∨ (x = y ∧ lexLt as bs = true)) := by
        rw [← lexLt_cons]
        simp [h1]
      have h2' : ¬(y < x ∨ (y = x ∧ lexLt bs as = true)) := by
        rw [← lexLt_cons]
        simp [h2]
      push_neg at h1' h2'
      have hxy : x = y := by omega
      subst hxy
      have e1 : lexLt as bs = false := by
        have := h1'.2 rfl
        revert this
        cases lexLt as bs <;> simp
      have e2 : lexLt bs as = false := by
        have := h2'.2 rfl
        revert this
        cases lexLt bs as <;> simp
      rw [ih bs e1 e2]

lemma lexLt_le_trans (a b c : Name) (h1 : lexLt b a = false) (h2 : lexLt c b = false) :
    lexLt c a = false := by
  cases hh : lexLt c a
  · rfl
  · exfalso
    by_cases hab : lexLt a b = true
    · have := lexLt_trans c a b hh hab
      rw [h2] at this
      exact absurd this (by simp)
    · have hab' : lexLt a b = false := by
        revert hab
        cases lexLt a b <;> simp
      have hbe : a = b := lexLt_conn a b hab' h1
      subst hbe
      rw [h2] at hh
      exact absurd hh (by simp)

lemma insertSorted_sorted (x : Name × Nat) (l : List (Name × Nat))
    (h : l.Pairwise fun a b => lexLt b.1 a.1 = false) :
    (insertSorted x l).Pairwise fun a b => lexLt b.1 a.1 = false := by
  induction l with
  | nil => simp [insertSorted]
  | cons y ys ih =>
    rw [List.pairwise_cons] at h
    obtain ⟨hy, hys⟩ := h
    unfold insertSorted
    by_cases hxy : lexLt y.1 x.1 = true
    · rw [if_pos hxy, List.pairwise_cons]
      refine ⟨?_, ih hys⟩
      intro z hz
      rcases List.mem_cons.mp ((insertSorted_perm x ys).mem_iff.mp hz) with hz' | hz'
      · subst hz'
        exact lexLt_asymm _ _ hxy
      · exact hy z hz'
    · rw [if_neg hxy, List.pairwise_cons]
      have hyx : lexLt y.1 x.1 = false := by
        revert hxy
        cases lexLt y.1 x.1 <;> simp
      refine ⟨?_, List.pairwise_cons.mpr ⟨hy, hys⟩⟩
      intro z hz
      rcases List.mem_cons.mp hz with hz' | hz'
      · subst hz'
        exact hyx
      · exact lexLt_le_trans x.1 y.1 z.1 hyx (hy z hz')

lemma sortByName_sorted (l : List (Name × Nat)) :
    (sortByName l).Pairwise fun a b => lexLt b.1 a.1 = false := by
  induction l with
  | nil => simp [sortByName]
  | cons x xs ih => exact insertSorted_sorted x (sortByName xs) ih

lemma mem_extract_header_iff (parts : List PartM) (nm : Name) (l : Nat) :
    (nm, l) ∈ extract_header parts
      ↔ nm ∈ (keptEntries parts).map Prod.fst ∧ l = maxKeptLen parts nm := by
  have hnd : ((buildDict (keptEntries parts)).map Prod.fst).Nodup :=
    keysNodup_foldl (keptEntries parts) [] (by simp)
  unfold extract_header
  rw [(sortByName_perm (buildDict (keptEntries parts))).mem_iff,
    mem_iff_findVal _ hnd nm l, findVal_buildDict]
  by_cases hocc : occursLens (keptEntries parts) nm = []
  · rw [if_pos hocc]
    constructor
    · intro h; exact absurd h (by simp)
    · rintro ⟨hmem, _⟩
      exact absurd hmem ((occursLens_eq_nil_iff _ _).mp hocc)
  · rw [if_neg hocc]
    have hmem : nm ∈ (keptEntries parts).map Prod.fst := by
      by_contra hc
      exact hocc ((occursLens_eq_nil_iff _ _).mpr hc)
    unfold maxKeptLen
    simp [hmem, eq_comm]

lemma extract_header_sorted_lt (parts : List PartM) :
    (extract_header parts).Pairwise fun a b => lexLt a.1 b.1 = true := by
  have hnd : ((buildDict (keptEntries parts)).map Prod.fst).Nodup :=
    keysNodup_foldl (keptEntries parts) [] (by simp)
  have hperm := sortByName_perm (buildDict (keptEntries parts))
  have hnds : ((extract_header parts).map Prod.fst).Nodup := by
    unfold extract_header
    exact ((hperm.map Prod.fst).nodup_iff).mpr hnd
  have hle : (extract_header parts).Pairwise fun a b => lexLt b.1 a.1 = false :=
    sortByName_sorted (buildDict (keptEntries parts))
  have hne : (extract_header parts).Pairwise fun a b => a.1 ≠ b.1 :=
    List.pairwise_map.mp hnds
  refine (hle.and hne).imp ?_
  rintro a b ⟨h1, h2⟩
  cases hh : lexLt a.1 b.1
  · exact absurd (lexLt_conn _ _ hh h1) h2
  · rfl

/-- Claim C2 (amended): the dictionary derived by `extract_header` contains
exactly the pairs (name, length of the longest entry of that name) over the
sequence entries of all parts that have a non-null name, a *valid UTF-8*
name, and a non-zero length (longer length wins a collision, a tie keeps the
first seen — hence the recorded value is the maximum), and the entries are
emitted in strictly ascending byte-lexicographic name order. -/
theorem extract_header_dedup_sorted (parts : List PartM) :
    (∀ (nm : Name) (l : Nat),
      (nm, l) ∈ extract_header parts
        ↔ nm ∈ (keptEntries parts).map Prod.fst ∧ l = maxKeptLen parts nm)
    ∧ (extract_header parts).Pairwise fun a b => lexLt a.1 b.1 = true :=
  ⟨fun nm l => mem_extract_header_iff parts nm l, extract_header_sorted_lt parts⟩

/-- Claim C2, counterexample: a sequence entry with the non-null, non-empty
name bytes `[0xFF]` (not valid UTF-8) and non-zero length 5 satisfies the
claim's filter, yet the dictionary built from the part containing it is
empty — the claim's "exactly the pairs with a non-null name and non-zero
length" fails without the UTF-8 condition. -/
theorem extract_header_claim_counterexample :
    (⟨some [255], 5⟩ : SeqEntryM).name ≠ none
      ∧ (⟨some [255], 5⟩ : SeqEntryM).len ≠ 0
      ∧ extract_header [⟨some [⟨some [255], 5⟩]⟩] = [] := by decide

/-- Claim C2, witness: the dedup/sort characterization at the two-part index
holding ("chr1", 100) and then ("chr1", 50), ("chr2", 200). -/
theorem extract_header_dedup_sorted_witness :
    (∀ (nm : Name) (l : Nat),
      (nm, l) ∈ extract_header [⟨some [⟨some [99, 104, 114, 49], 100⟩]⟩,
          ⟨some [⟨some [99, 104, 114, 49], 50⟩, ⟨some [99, 104, 114, 50], 200⟩]⟩]
        ↔ nm ∈ (keptEntries [⟨some [⟨some [99, 104, 114, 49], 100⟩]⟩,
            ⟨some [⟨some [99, 104, 114, 49], 50⟩,
              ⟨some [99, 104, 114, 50], 200⟩]⟩]).map Prod.fst
          ∧ l = maxKeptLen [⟨some [⟨some [99, 104, 114, 49], 100⟩]⟩,
              ⟨some [⟨some [99, 104, 114, 49], 50⟩,
                ⟨some [99, 104, 114, 50], 200⟩]⟩] nm)
    ∧ (extract_header [⟨some [⟨some [99, 104, 114, 49], 100⟩]⟩,
        ⟨some [⟨some [99, 104, 114, 49], 50⟩,
          ⟨some [99, 104, 114, 50], 200⟩]⟩]).Pairwise fun a b => lexLt a.1 b.1 = true :=
  extract_header_dedup_sorted [⟨some [⟨some [99, 104, 114, 49], 100⟩]⟩,
    ⟨some [⟨some [99, 104, 114, 49], 50⟩, ⟨some [99, 104, 114, 50], 200⟩]⟩]

lemma keptEntries_valid (parts : List PartM) :
    ∀ e ∈ keptEntries parts, utf8Valid e.1 = true := by
  intro e he
  unfold keptEntries at he
  rw [List.mem_flatten] at he
  obtain ⟨l, hl, hel⟩ := he
  rw [List.mem_map] at hl
  obtain ⟨p, hp, rfl⟩ := hl
  unfold keptOfPart at hel
  cases hs : p.seqs with
  | none => rw [hs] at hel; exact absurd hel (by simp)
  | some es =>
    rw [hs] at hel
    rw [List.mem_filterMap] at hel
    obtain ⟨a, _, hk⟩ := hel
    rcases a with ⟨aname, alen⟩
    cases aname with
    | none => exact absurd hk (by simp [keepEntry])
    | some nm =>
      by_cases hz : alen = 0
      · rw [show keepEntry ⟨some nm, alen⟩ = none by simp [keepEntry, hz]] at hk
        exact absurd hk (by simp)
      · by_cases hu : utf8Valid nm = true
        · rw [show keepEntry ⟨some nm, alen⟩ = some (nm, alen) by
            simp [keepEntry, hz, hu]] at hk
          simp only [Option.some.injEq] at hk
          rw [← hk]
          exact hu
        · rw [show keepEntry ⟨some nm, alen⟩ = none by simp [keepEntry, hz, hu]] at hk
          exact absurd hk (by simp)

lemma filterMap_keepEntry_filter (es : List SeqEntryM) :
    (es.filter fun e =>
      match e.name with
      | none => true
      | some nm => utf8Valid nm).filterMap keepEntry = es.filterMap keepEntry := by
  induction es with
  | nil => rfl
  | cons e rest ih =>
    rcases e with ⟨name, len⟩
    cases name with
    | none =>
      simp only [List.filter_cons]
      rw [if_pos (by simp)]
      rw [List.filterMap_cons, List.filterMap_cons]
      simp only [show keepEntry ⟨none, len⟩ = none from rfl]
      exact ih
    | some nm =>
      by_cases h : utf8Valid nm = true
      · simp only [List.filter_cons]
        rw [if_pos (by simp [h])]
        rw [List.filterMap_cons, List.filterMap_cons, ih]
      · have hnone : keepEntry ⟨some nm, len⟩ = none := by
          by_cases hz : len = 0 <;> simp [keepEntry, hz, h]
        simp only [List.filter_cons]
        rw [if_neg (by simp [h])]
        rw [ih, List.filterMap_cons]
        simp [hnone]

lemma keptOfPart_strip (p : PartM) :
    keptOfPart ⟨p.seqs.map (·.filter fun e =>
      match e.name with
      | none => true
      | some nm => utf8Valid nm)⟩ = keptOfPart p := by
  unfold keptOfPart
  cases hs : p.seqs with
  | none => rfl
  | some es => exact filterMap_keepEntry_filter es

lemma keptEntries_strip (parts : List PartM) :
    keptEntries (stripInvalidNames parts) = keptEntries parts := by
  unfold keptEntries stripInvalidNames
  rw [List.map_map]
  congr 1
  apply List.map_congr_left
  intro p _
  exact keptOfPart_strip p

/-- Claim C10: a sequence entry whose name bytes are not valid UTF-8 is
silently omitted from the derived dictionary — every dictionary entry has a
valid UTF-8 name and the dictionary is unchanged when such entries are
stripped — while alignment still consults the engine on every original part
(one mapping outcome per part, invalid-named entries included). -/
theorem invalid_utf8_names_omitted (parts : List PartM) :
    (∀ p ∈ extract_header parts, utf8Valid p.1 = true)
    ∧ extract_header parts = extract_header (stripInvalidNames parts)
    ∧ ∀ (engine : PartM → MapResult) (qname qseq : List Nat),
        alignAgainstIndex parts engine qname qseq
          = align_read (extract_header (stripInvalidNames parts)).length qname qseq
              (parts.map engine) := by
  have h2 : extract_header parts = extract_header (stripInvalidNames parts) := by
    unfold extract_header
    rw [keptEntries_strip]
  refine ⟨?_, h2, ?_⟩
  · rintro ⟨nm, l⟩ hp
    obtain ⟨hmem, _⟩ := (mem_extract_header_iff parts nm l).mp hp
    rw [List.mem_map] at hmem
    obtain ⟨e, he, hfst⟩ := hmem
    rw [← hfst]
    exact keptEntries_valid parts e he
  · intro engine qname qseq
    unfold alignAgainstIndex
    rw [h2]

/-- Claim C10, witness: a part holding the valid name "hi" and the invalid
name bytes `[0xFF]`. -/
theorem invalid_utf8_names_omitted_witness :
    (∀ p ∈ extract_header [⟨some [⟨some [104, 105], 3⟩, ⟨some [255], 9⟩]⟩],
      utf8Valid p.1 = true)
    ∧ extract_header [⟨some [⟨some [104, 105], 3⟩, ⟨some [255], 9⟩]⟩]
        = extract_header (stripInvalidNames [⟨some [⟨some [104, 105], 3⟩, ⟨some [255], 9⟩]⟩])
    ∧ ∀ (engine : PartM → MapResult) (qname qseq : List Nat),
        alignAgainstIndex [⟨some [⟨some [104, 105], 3⟩, ⟨some [255], 9⟩]⟩] engine qname qseq
          = align_read (extract_header (stripInvalidNames
              [⟨some [⟨some [104, 105], 3⟩, ⟨some [255], 9⟩]⟩])).length qname qseq
              ([⟨some [⟨some [104, 105], 3⟩, ⟨some [255], 9⟩]⟩].map engine) :=
  invalid_utf8_names_omitted [⟨some [⟨some [104, 105], 3⟩, ⟨some [255], 9⟩]⟩]

end Minimap2
